import Mathlib

/-!
Verification of the Riemersma dithering engine (package `riemersma`,
file `riemersma.go`, type `Op`).

Modelling conventions:
* Go `float64` arithmetic is modelled in `ℚ`.  Every float computation a
  claim depends on here is exact in IEEE double precision as well
  (integer values up to 2^16, `x - x`, `0 * w`, `0 + 0`, `0 / r`), and
  this is noted at each use site.
* `math.Round` (round half away from zero) is `rnd` below.
* The multiplier `m = math.Exp(math.Log(ratio) / float64(size-1))`
  computed in `initWeights` is transcendental; it is passed as an
  explicit parameter `m : ℚ` wherever its (claim-irrelevant) value does
  not matter.  Go's `math.Exp`/`math.Log` are total (they return
  `NaN`/`±Inf` rather than failing), so threading a parameter loses no
  control flow.
* Machine `int` arithmetic cannot overflow in the fragments modelled
  (cursor coordinates and levels stay far below 2^63), so `ℤ`/`ℕ` are
  used directly.
* The mutable destination image (`img.dst`) is modelled as the log of
  `Set` calls (`Op.writes`) plus a read-back function
  (`ImageM.quantize`); the source image as a pure color function.
-/

namespace Riemersma

/-- Hilbert traversal direction (`hilbertDirection`, constants
`dirNONE`, `dirUP`, `dirLEFT`, `dirDOWN`, `dirRIGHT`). -/
inductive Dir where
  | NONE
  | UP
  | LEFT
  | DOWN
  | RIGHT
deriving DecidableEq

/-- Cursor movement of `Op.move` (the trailing `switch dir` in `move`):
`dirLEFT` decrements x, `dirRIGHT` increments x, `dirUP` decrements y,
`dirDOWN` increments y, `dirNONE` does not move. -/
def moveStep : Dir → ℤ × ℤ → ℤ × ℤ
  | .LEFT, p => (p.1 - 1, p.2)
  | .RIGHT, p => (p.1 + 1, p.2)
  | .UP, p => (p.1, p.2 - 1)
  | .DOWN, p => (p.1, p.2 + 1)
  | .NONE, p => p

/-- The sequence of directions `hilbertLevel(level, dir)` passes to
`move`, in call order: each `rs.move(d, image)` contributes `[d]`, each
recursive call contributes its own sequence, and Go sequencing is list
append.  `hilbertLevel` is never called with `level = 0` (`Dither`
guards `level > 0`); in Go that call would recurse forever, here it is
mapped to the empty sequence.  A `dirNONE` argument falls through every
`switch` case and does nothing. -/
def hilbertDirs : ℕ → Dir → List Dir
  | 0, _ => []
  | 1, .LEFT => [.RIGHT, .DOWN, .LEFT]
  | 1, .RIGHT => [.LEFT, .UP, .RIGHT]
  | 1, .UP => [.DOWN, .RIGHT, .UP]
  | 1, .DOWN => [.UP, .LEFT, .DOWN]
  | 1, .NONE => []
  | n + 2, .LEFT =>
      hilbertDirs (n + 1) .UP ++ [.RIGHT] ++ hilbertDirs (n + 1) .LEFT ++ [.DOWN] ++
        hilbertDirs (n + 1) .LEFT ++ [.LEFT] ++ hilbertDirs (n + 1) .DOWN
  | n + 2, .RIGHT =>
      hilbertDirs (n + 1) .DOWN ++ [.LEFT] ++ hilbertDirs (n + 1) .RIGHT ++ [.UP] ++
        hilbertDirs (n + 1) .RIGHT ++ [.RIGHT] ++ hilbertDirs (n + 1) .UP
  | n + 2, .UP =>
      hilbertDirs (n + 1) .LEFT ++ [.DOWN] ++ hilbertDirs (n + 1) .UP ++ [.RIGHT] ++
        hilbertDirs (n + 1) .UP ++ [.UP] ++ hilbertDirs (n + 1) .RIGHT
  | n + 2, .DOWN =>
      hilbertDirs (n + 1) .RIGHT ++ [.UP] ++ hilbertDirs (n + 1) .DOWN ++ [.LEFT] ++
        hilbertDirs (n + 1) .DOWN ++ [.DOWN] ++ hilbertDirs (n + 1) .LEFT
  | _ + 2, .NONE => []

/-- Cursor positions at which `move` is invoked while executing a
direction sequence from start position `p` (each `move` dithers the
current position, then steps). -/
def visits : List Dir → ℤ × ℤ → List (ℤ × ℤ)
  | [], _ => []
  | d :: ds, p => p :: visits ds (moveStep d p)

/-- Cursor position after executing a direction sequence from `p`. -/
def endPos : List Dir → ℤ × ℤ → ℤ × ℤ
  | [], p => p
  | d :: ds, p => endPos ds (moveStep d p)

/-- All positions dithered by a direction sequence followed by one
final no-move (`dirNONE`) visit, as performed by `Dither`. -/
def visitsFull (ds : List Dir) (p : ℤ × ℤ) : List (ℤ × ℤ) :=
  visits ds p ++ [endPos ds p]

/-- Membership in the axis-aligned square with low corner `c` and side
`s + 1` (inclusive bounds), the shape a Hilbert block covers. -/
def inSq (c : ℤ × ℤ) (s : ℤ) (q : ℤ × ℤ) : Prop :=
  c.1 ≤ q.1 ∧ q.1 ≤ c.1 + s ∧ c.2 ≤ q.2 ∧ q.2 ≤ c.2 + s

/-- Low corner of the square covered by `hilbertDirs l d` started at
`p`, where `s = 2^l - 1`: the `UP`/`LEFT` blocks grow toward larger
coordinates, the `RIGHT`/`DOWN` blocks toward smaller ones. -/
def sqLow : Dir → ℤ × ℤ → ℤ → ℤ × ℤ
  | .UP, p, _ => p
  | .LEFT, p, _ => p
  | .NONE, p, _ => p
  | .RIGHT, p, s => (p.1 - s, p.2 - s)
  | .DOWN, p, s => (p.1 - s, p.2 - s)

/-- Final cursor position of `hilbertDirs l d` started at `p`, where
`s = 2^l - 1`. -/
def endOf : Dir → ℤ × ℤ → ℤ → ℤ × ℤ
  | .UP, p, s => (p.1 + s, p.2)
  | .LEFT, p, s => (p.1, p.2 + s)
  | .RIGHT, p, s => (p.1, p.2 - s)
  | .DOWN, p, s => (p.1 - s, p.2)
  | .NONE, p, _ => p

/-- Go `ColorError` (`[]float64`): per-channel signed quantization
error, modelled in `ℚ`. -/
abbrev ColorError := List ℚ

/-- Go `errorList`: slice of `ColorError` plus write cursor `head`.
A Go `nil` slice entry (never written) is `none`. -/
structure errorList where
  err : List (Option ColorError)
  head : ℕ
deriving DecidableEq

/-- Go `newErrorList(size)`: all entries `nil`, `head = 0`. -/
def newErrorList (size : ℕ) : errorList :=
  { err := List.replicate size none, head := 0 }

/-- Go `errorList.Get(i)`: `el.err[(el.head+i) % len(el.err)]`.
`List.getD` stands in for slice indexing; the index is in range
whenever `len(el.err) ≥ 1` (claim C10), and Go panics when
`len(el.err) = 0` (division by zero) — a case every claim excludes. -/
def errorList.Get (el : errorList) (i : ℕ) : Option ColorError :=
  el.err.getD ((el.head + i) % el.err.length) none

/-- Go `errorList.Size()`: `len(el.err)`. -/
def errorList.Size (el : errorList) : ℕ :=
  el.err.length

/-- Go `errorList.Rotate(val)`: `el.err[el.head] = val; el.head += 1;
if el.head >= len(el.err) { el.head = 0 }`.  `List.set` stands in for
the slice store; the write index is in range whenever
`len(el.err) ≥ 1` and `el.head < len(el.err)` (claim C10), and Go
panics on an empty list — a case every claim excludes. -/
def errorList.Rotate (el : errorList) (val : ColorError) : errorList :=
  { err := el.err.set el.head (some val),
    head := if el.head + 1 ≥ el.err.length then 0 else el.head + 1 }

/-- Go `math.Round`: round half away from zero (exact on the values at
issue; IEEE `math.Round` is exact on every float). -/
def rnd (q : ℚ) : ℤ :=
  if 0 ≤ q then ⌊q + 1 / 2⌋ else ⌈q - 1 / 2⌉

/-- Go `clamp(i int32) uint16`: clip into `[0, 0xffff]`. -/
def clamp (i : ℤ) : ℤ :=
  if i < 0 then 0 else if i > 0xffff then 0xffff else i

/-- Go `color.NRGBA64`: non-alpha-premultiplied 64-bit color, four
`uint16` channels.  Channels are carried in `ℤ`; `InRange` states the
`uint16` range guarantee where a claim needs it. -/
structure NRGBA64 where
  R : ℤ
  G : ℤ
  B : ℤ
  A : ℤ
deriving DecidableEq

/-- The `uint16` range guarantee of every Go `color.NRGBA64` channel. -/
def NRGBA64.InRange (c : NRGBA64) : Prop :=
  0 ≤ c.R ∧ c.R ≤ 0xffff ∧ 0 ≤ c.G ∧ c.G ≤ 0xffff ∧
    0 ≤ c.B ∧ c.B ≤ 0xffff ∧ 0 ≤ c.A ∧ c.A ≤ 0xffff

instance (c : NRGBA64) : Decidable c.InRange := by
  unfold NRGBA64.InRange
  infer_instance

/-- Model of the `anyImage` value built by `NewImage`:
* `size` is `image.Pt(min(srcSize.X, r.Dx()), min(srcSize.Y, r.Dy()))`;
* `numChannels` is the `numChannels` field (`NewImage` sets 4);
* `src x y` is `color.NRGBA64Model.Convert(img.src.At(img.sp.X+x,
  img.sp.Y+y))` — the source pixel already shifted by `sp` and
  converted;
* `quantize x y c` is what
  `color.NRGBA64Model.Convert(img.dst.At(img.dp.X+x, img.dp.Y+y))`
  returns after `img.dst.Set(img.dp.X+x, img.dp.Y+y, c)` — the sink's
  opaque quantization observed through read-back.  Each coordinate is
  written at most once per run (claim C1), so a per-call function
  models the mutable destination faithfully. -/
structure ImageM where
  size : ℤ × ℤ
  numChannels : ℕ
  src : ℤ → ℤ → NRGBA64
  quantize : ℤ → ℤ → NRGBA64 → NRGBA64

/-- The proposed color of `anyImage.DitherPixel`: per channel,
`clamp(int32(sc.ch) + int32(math.Round(accErr[j])))`.  The `int32`
conversions are exact: the rounded accumulated error in any actual run
is far below 2^31 in magnitude, and channels are below 2^16. -/
def propose (sc : NRGBA64) (accErr : List ℚ) : NRGBA64 :=
  { R := clamp (sc.R + rnd (accErr.getD 0 0)),
    G := clamp (sc.G + rnd (accErr.getD 1 0)),
    B := clamp (sc.B + rnd (accErr.getD 2 0)),
    A := clamp (sc.A + rnd (accErr.getD 3 0)) }

/-- Go `anyImage.DitherPixel(x, y, accErr)`: convert the source pixel,
adjust by the rounded accumulated error and clamp, store the proposed
color in `dst` (returned in the first component, appended to the write
log by `Op.move`), read back the stored color, and return the
per-channel error `sc - dc` (exact float subtraction of integers
below 2^16). -/
def DitherPixel (img : ImageM) (x y : ℤ) (accErr : List ℚ) : NRGBA64 × ColorError :=
  let sc := img.src x y
  let nc := propose sc accErr
  let dc := img.quantize x y nc
  (nc, [(sc.R : ℚ) - dc.R, (sc.G : ℚ) - dc.G, (sc.B : ℚ) - dc.B, (sc.A : ℚ) - dc.A])

/-- Go `Op`: the Riemersma dither operation.  `writes` is the log of
`img.dst.Set` calls (the mutable destination image), in call order. -/
structure Op where
  Ratio : ℚ
  Weights : List ℚ
  errors : errorList
  x : ℤ
  y : ℤ
  writes : List ((ℤ × ℤ) × NRGBA64)
deriving DecidableEq

/-- One channel of `Op.AccumulatedError`: Go runs the slot loop `i`
outermost and updates every channel cell `acc[j]` per slot; the cells
are independent, so channel `j`'s final value is the same fold over
slots, followed by `acc[j] /= rs.Ratio`.  A `nil` history entry is
skipped (`if err == nil { continue }`). -/
def accChannel (rs : Op) (j : ℕ) : ℚ :=
  ((List.range rs.errors.Size).foldl (fun a i =>
    match rs.errors.Get i with
    | none => a
    | some e => a + e.getD j 0 * rs.Weights.getD i 0) 0) / rs.Ratio

/-- Go `Op.AccumulatedError(numChannel)`: the weighted, `Ratio`-scaled
accumulated error vector, one entry per channel. -/
def Op.AccumulatedError (rs : Op) (numChannel : ℕ) : ColorError :=
  (List.range numChannel).map (accChannel rs)

/-- The spec's accumulated-error formula for channel `j` (claim C4):
the sum over all history slots of `weight[i] * history.get(i)[j]`,
with a never-written (`nil`) slot contributing exactly zero, divided
by `ratio`.  Compared against the code's `accChannel` fold in
`accChannel_eq_sum`. -/
def accSumC (rs : Op) (j : ℕ) : ℚ :=
  ((List.range rs.errors.Size).map (fun i =>
    match rs.errors.Get i with
    | none => 0
    | some e => e.getD j 0 * rs.Weights.getD i 0)).sum / rs.Ratio

/-- Go `Op.move(dir, image)`: if the cursor is inside
`[0, size.X) × [0, size.Y)`, dither the current pixel (logging the
`dst.Set` call in `writes`) and rotate the new error into the history;
then step the cursor in `dir`. -/
def Op.move (rs : Op) (dir : Dir) (img : ImageM) : Op :=
  let rs1 :=
    if 0 ≤ rs.x ∧ rs.x < img.size.1 ∧ 0 ≤ rs.y ∧ rs.y < img.size.2 then
      let r := DitherPixel img rs.x rs.y (rs.AccumulatedError img.numChannels)
      { rs with
        errors := rs.errors.Rotate r.2,
        writes := rs.writes ++ [((rs.x, rs.y), r.1)] }
    else rs
  match dir with
  | .LEFT => { rs1 with x := rs1.x - 1 }
  | .RIGHT => { rs1 with x := rs1.x + 1 }
  | .UP => { rs1 with y := rs1.y - 1 }
  | .DOWN => { rs1 with y := rs1.y + 1 }
  | .NONE => rs1

/-- Executing a direction sequence by repeated `Op.move` (Go sequencing
of `move` calls). -/
def Op.runDirs (rs : Op) (ds : List Dir) (img : ImageM) : Op :=
  ds.foldl (fun s d => s.move d img) rs

/-- Go `Op.hilbertLevel(level, dir, image)`, the recursive Hilbert
expansion, translated move call by move call.  `level = 0` never occurs
(Go would recurse forever; `Dither` guards `level > 0`) and is mapped
to the identity. -/
def Op.hilbertLevel (rs : Op) : ℕ → Dir → ImageM → Op
  | 0, _, _ => rs
  | 1, .LEFT, img => (((rs.move .RIGHT img).move .DOWN img).move .LEFT img)
  | 1, .RIGHT, img => (((rs.move .LEFT img).move .UP img).move .RIGHT img)
  | 1, .UP, img => (((rs.move .DOWN img).move .RIGHT img).move .UP img)
  | 1, .DOWN, img => (((rs.move .UP img).move .LEFT img).move .DOWN img)
  | 1, .NONE, _ => rs
  | n + 2, .LEFT, img =>
      ((((((rs.hilbertLevel (n + 1) .UP img).move .RIGHT img).hilbertLevel (n + 1) .LEFT
        img).move .DOWN img).hilbertLevel (n + 1) .LEFT img).move .LEFT
        img).hilbertLevel (n + 1) .DOWN img
  | n + 2, .RIGHT, img =>
      ((((((rs.hilbertLevel (n + 1) .DOWN img).move .LEFT img).hilbertLevel (n + 1) .RIGHT
        img).move .UP img).hilbertLevel (n + 1) .RIGHT img).move .RIGHT
        img).hilbertLevel (n + 1) .UP img
  | n + 2, .UP, img =>
      ((((((rs.hilbertLevel (n + 1) .LEFT img).move .DOWN img).hilbertLevel (n + 1) .UP
        img).move .RIGHT img).hilbertLevel (n + 1) .UP img).move .UP
        img).hilbertLevel (n + 1) .RIGHT img
  | n + 2, .DOWN, img =>
      ((((((rs.hilbertLevel (n + 1) .RIGHT img).move .UP img).hilbertLevel (n + 1) .DOWN
        img).move .LEFT img).hilbertLevel (n + 1) .DOWN img).move .DOWN
        img).hilbertLevel (n + 1) .LEFT img
  | _ + 2, .NONE, _ => rs

/-- Go `log2(value int) int`: repeated halving while `value > 1`.  This
is `Nat.log2` on `value.toNat` (for `value ≤ 1`, including negatives,
the loop body never runs and the result is 0; for `value > 1` the `>>`
halving is `Nat` division by 2). -/
def log2 (value : ℤ) : ℕ :=
  Nat.log2 value.toNat

/-- The Hilbert order computed at the top of Go `Op.Dither`:
`sideLength := max(imgSize.X, imgSize.Y); level := log2(sideLength);
if 1<<level < sideLength { level += 1 }` (`1 << level` is `2 ^ level`;
`level` stays far below 63, so `int` shift is exact). -/
def ditherLevel (img : ImageM) : ℕ :=
  let sideLength := max img.size.1 img.size.2
  let level0 := log2 sideLength
  if (2 ^ level0 : ℤ) < sideLength then level0 + 1 else level0

/-- Go `Op.Dither(image)`: derive the Hilbert order from the larger
image dimension (split out as `ditherLevel`), run the recursive
expansion when `level > 0`, and always perform one final no-move
visit. -/
def Op.Dither (rs : Op) (img : ImageM) : Op :=
  let level := ditherLevel img
  let rs1 := if 0 < level then rs.hilbertLevel level .UP img else rs
  rs1.move .NONE img

/-- The loop of Go `initWeights`: `v` starts at `1.0`; at each step
`weights[i] = math.Round(v)`; then `v = v * m`.  `math.Round(1.0)` is
exactly `1.0`. -/
def initWeightsGo (m : ℚ) : ℕ → ℚ → List ℚ
  | 0, _ => []
  | n + 1, v => (rnd v : ℚ) :: initWeightsGo m n (v * m)

/-- Go `initWeights(size, ratio)`.  The multiplier
`m = math.Exp(math.Log(ratio) / float64(size-1))` is passed as a
parameter (see the file header); the Go float computation of `m` is
total — for `size = 1` it divides by `0.0` yielding `±Inf` or `NaN`
without any runtime error — and no claim depends on its value. -/
def initWeights (size : ℕ) (m : ℚ) : List ℚ :=
  initWeightsGo m size 1

/-- Go `NewOperation(queueSize, ratio)` for `queueSize ≥ 0`: plain
struct construction, no validation of any argument.  The cursor and the
write log start at their Go zero values. -/
def NewOperation (queueSize : ℕ) (ratio m : ℚ) : Op :=
  { Ratio := ratio,
    Weights := initWeights queueSize m,
    errors := newErrorList queueSize,
    x := 0,
    y := 0,
    writes := [] }

/-- Go `NewOperation` over machine-int `queueSize`, with the one way it
can abort: `make([]float64, queueSize)` panics when `queueSize < 0`
(`.error`); every other call returns an operation (`.ok`). -/
def NewOperationE (queueSize : ℤ) (ratio m : ℚ) : Except String Op :=
  if queueSize < 0 then Except.error "makeslice: len out of range"
  else Except.ok (NewOperation queueSize.toNat ratio m)

/-- The CLI's only ratio validation (`cmd/riemersma/main.go`):
`if ratio <= 0 { panic("Ratio must be positive") }`, run before
`NewOperation` is ever called. -/
def cliRatioCheck (ratio : ℚ) : Except String Unit :=
  if ratio ≤ 0 then Except.error "Ratio must be positive" else Except.ok ()

/-- The cursor-in-bounds test of `Op.move`, as a Boolean on positions. -/
def inBoundsB (img : ImageM) (p : ℤ × ℤ) : Bool :=
  decide (0 ≤ p.1 ∧ p.1 < img.size.1 ∧ 0 ≤ p.2 ∧ p.2 < img.size.2)

/-- Indexing-safety invariant (claim C10): the ring-buffer write cursor
is in range and the weight table matches the ring capacity. -/
def Inv (rs : Op) : Prop :=
  rs.errors.head < rs.errors.Size ∧ rs.Weights.length = rs.errors.Size

/-- Every history slot is either never written (`nil`) or holds the
all-zero four-channel error. -/
def ZeroErrors (el : errorList) : Prop :=
  ∀ o ∈ el.err, o = none ∨ o = some [0, 0, 0, 0]

/-- Rotating a whole list of values into an error history, oldest
first. -/
def rotateAll (el : errorList) (ws : List ColorError) : errorList :=
  ws.foldl errorList.Rotate el

/-! Path lemmas for direction sequences. -/

theorem visits_append (l1 l2 : List Dir) (p : ℤ × ℤ) :
    visits (l1 ++ l2) p = visits l1 p ++ visits l2 (endPos l1 p) := by
  induction l1 generalizing p with
  | nil => simp [visits, endPos]
  | cons d ds ih => simp [visits, endPos, ih]

theorem endPos_append (l1 l2 : List Dir) (p : ℤ × ℤ) :
    endPos (l1 ++ l2) p = endPos l2 (endPos l1 p) := by
  induction l1 generalizing p with
  | nil => simp [endPos]
  | cons d ds ih => simp [endPos, ih]

theorem visitsFull_split (l1 : List Dir) (d : Dir) (l2 : List Dir) (p : ℤ × ℤ) :
    visitsFull (l1 ++ d :: l2) p =
      visitsFull l1 p ++ visitsFull l2 (moveStep d (endPos l1 p)) := by
  have h : l1 ++ d :: l2 = l1 ++ ([d] ++ l2) := by simp
  simp [visitsFull, h, visits_append, endPos_append, visits, endPos]

theorem endPos_split (l1 : List Dir) (d : Dir) (l2 : List Dir) (p : ℤ × ℤ) :
    endPos (l1 ++ d :: l2) p = endPos l2 (moveStep d (endPos l1 p)) := by
  have h : l1 ++ d :: l2 = l1 ++ ([d] ++ l2) := by simp
  simp [h, endPos_append, endPos]

theorem visitsFull_head (ds : List Dir) (p : ℤ × ℤ) :
    (visitsFull ds p).head? = some p := by
  cases ds <;> simp [visitsFull, visits, endPos]

/-- Gluing two blocks: membership becomes the disjunction and
no-duplication is preserved when the two coverage predicates are
disjoint. -/
theorem mem_nodup_append {F G : List (ℤ × ℤ)} {P Q : ℤ × ℤ → Prop}
    (hF : ∀ q, q ∈ F ↔ P q) (hG : ∀ q, q ∈ G ↔ Q q)
    (hFn : F.Nodup) (hGn : G.Nodup) (hd : ∀ q, P q → Q q → False) :
    (∀ q, q ∈ F ++ G ↔ P q ∨ Q q) ∧ (F ++ G).Nodup := by
  constructor
  · intro q
    simp [List.mem_append, hF, hG]
  · exact hFn.append hGn (fun a haF haG => hd a ((hF a).1 haF) ((hG a).1 haG))

/-- Geometry of the recursive Hilbert expansion: started at `p`, the
order-`l` block facing `d` ends at `endOf d p (2^l - 1)` and its
visited positions (final no-move visit included) are exactly the cells
of the square `inSq (sqLow d p (2^l - 1)) (2^l - 1)`, each exactly
once. -/
theorem hilbert_geom (l : ℕ) (hl : 1 ≤ l) :
    ∀ d : Dir, d ≠ Dir.NONE → ∀ p : ℤ × ℤ,
      endPos (hilbertDirs l d) p = endOf d p (2 ^ l - 1) ∧
      (∀ q, q ∈ visitsFull (hilbertDirs l d) p ↔
        inSq (sqLow d p (2 ^ l - 1)) (2 ^ l - 1) q) ∧
      (visitsFull (hilbertDirs l d) p).Nodup := by
  induction l, hl using Nat.le_induction with
  | base =>
    intro d hd p
    cases d with
    | NONE => exact absurd rfl hd
    | UP =>
      refine ⟨by simp [hilbertDirs, endPos, moveStep, endOf], fun q => ?_, ?_⟩
      · obtain ⟨qx, qy⟩ := q
        simp [hilbertDirs, visitsFull, visits, endPos, moveStep, inSq, sqLow, Prod.ext_iff]
        omega
      · simp [hilbertDirs, visitsFull, visits, endPos, moveStep, Prod.ext_iff] <;> omega
    | LEFT =>
      refine ⟨by simp [hilbertDirs, endPos, moveStep, endOf], fun q => ?_, ?_⟩
      · obtain ⟨qx, qy⟩ := q
        simp [hilbertDirs, visitsFull, visits, endPos, moveStep, inSq, sqLow, Prod.ext_iff]
        omega
      · simp [hilbertDirs, visitsFull, visits, endPos, moveStep, Prod.ext_iff] <;> omega
    | RIGHT =>
      refine ⟨by simp [hilbertDirs, endPos, moveStep, endOf], fun q => ?_, ?_⟩
      · obtain ⟨qx, qy⟩ := q
        simp [hilbertDirs, visitsFull, visits, endPos, moveStep, inSq, sqLow, Prod.ext_iff]
        omega
      · simp [hilbertDirs, visitsFull, visits, endPos, moveStep, Prod.ext_iff] <;> omega
    | DOWN =>
      refine ⟨by simp [hilbertDirs, endPos, moveStep, endOf], fun q => ?_, ?_⟩
      · obtain ⟨qx, qy⟩ := q
        simp [hilbertDirs, visitsFull, visits, endPos, moveStep, inSq, sqLow, Prod.ext_iff]
        omega
      · simp [hilbertDirs, visitsFull, visits, endPos, moveStep, Prod.ext_iff] <;> omega
  | succ n hn ih =>
    obtain ⟨m, rfl⟩ : ∃ m, n = m + 1 := ⟨n - 1, by omega⟩
    have endU := fun p => (ih .UP (by simp) p).1
    have endL := fun p => (ih .LEFT (by simp) p).1
    have endR := fun p => (ih .RIGHT (by simp) p).1
    have endD := fun p => (ih .DOWN (by simp) p).1
    have memU := fun p => (ih .UP (by simp) p).2.1
    have memL := fun p => (ih .LEFT (by simp) p).2.1
    have memR := fun p => (ih .RIGHT (by simp) p).2.1
    have memD := fun p => (ih .DOWN (by simp) p).2.1
    have ndU := fun p => (ih .UP (by simp) p).2.2
    have ndL := fun p => (ih .LEFT (by simp) p).2.2
    have ndR := fun p => (ih .RIGHT (by simp) p).2.2
    have ndD := fun p => (ih .DOWN (by simp) p).2.2
    have hpow : (2 : ℤ) ^ (m + 1 + 1) = 2 * 2 ^ (m + 1) := by ring
    have hge : (1 : ℤ) ≤ 2 ^ (m + 1) := one_le_pow₀ (by norm_num)
    intro d hd p
    cases d with
    | NONE => exact absurd rfl hd
    | UP =>
      have hdec : hilbertDirs (m + 1 + 1) .UP =
          hilbertDirs (m + 1) .LEFT ++ .DOWN ::
            (hilbertDirs (m + 1) .UP ++ .RIGHT ::
              (hilbertDirs (m + 1) .UP ++ .UP :: hilbertDirs (m + 1) .RIGHT)) := by
        simp [hilbertDirs]
      refine ⟨?_, ?_, ?_⟩
      · rw [hdec, endPos_split, endPos_split, endPos_split]
        simp only [endL, endU, endR, endOf, moveStep]
        simp [Prod.ext_iff]
        omega
      · intro q
        rw [hdec, visitsFull_split, visitsFull_split, visitsFull_split]
        simp only [endL, endU, endR, endOf, moveStep, List.mem_append,
          memL, memU, memR, inSq, sqLow]
        omega
      · rw [hdec, visitsFull_split, visitsFull_split, visitsFull_split]
        simp only [endL, endU, endR, endOf, moveStep]
        refine List.Nodup.append (ndL _) (List.Nodup.append (ndU _)
          (List.Nodup.append (ndU _) (ndR _) ?_) ?_) ?_
        · intro a h3 h4
          rw [memU] at h3
          rw [memR] at h4
          simp only [inSq, sqLow] at h3 h4
          omega
        · intro a h2 h34
          rw [memU] at h2
          rw [List.mem_append] at h34
          rcases h34 with h3 | h4
          · rw [memU] at h3
            simp only [inSq, sqLow] at h2 h3
            omega
          · rw [memR] at h4
            simp only [inSq, sqLow] at h2 h4
            omega
        · intro a h1 h234
          rw [memL] at h1
          rw [List.mem_append, List.mem_append] at h234
          rcases h234 with h2 | h3 | h4
          · rw [memU] at h2
            simp only [inSq, sqLow] at h1 h2
            omega
          · rw [memU] at h3
            simp only [inSq, sqLow] at h1 h3
            omega
          · rw [memR] at h4
            simp only [inSq, sqLow] at h1 h4
            omega
    | LEFT =>
      have hdec : hilbertDirs (m + 1 + 1) .LEFT =
          hilbertDirs (m + 1) .UP ++ .RIGHT ::
            (hilbertDirs (m + 1) .LEFT ++ .DOWN ::
              (hilbertDirs (m + 1) .LEFT ++ .LEFT :: hilbertDirs (m + 1) .DOWN)) := by
        simp [hilbertDirs]
      refine ⟨?_, ?_, ?_⟩
      · rw [hdec, endPos_split, endPos_split, endPos_split]
        simp only [endU, endL, endD, endOf, moveStep]
        simp [Prod.ext_iff]
        omega
      · intro q
        rw [hdec, visitsFull_split, visitsFull_split, visitsFull_split]
        simp only [endU, endL, endD, endOf, moveStep, List.mem_append,
          memU, memL, memR, memD, inSq, sqLow]
        omega
      · rw [hdec, visitsFull_split, visitsFull_split, visitsFull_split]
        simp only [endU, endL, endD, endOf, moveStep]
        refine List.Nodup.append (ndU _) (List.Nodup.append (ndL _)
          (List.Nodup.append (ndL _) (ndD _) ?_) ?_) ?_
        · intro a h1 h2
          simp only [memU, memL, memR, memD, inSq, sqLow] at h1 h2
          omega
        · intro a h1 h2
          simp only [List.mem_append, memU, memL, memR, memD, inSq, sqLow] at h1 h2
          rcases h2 with h2 | h2 <;> omega
        · intro a h1 h2
          simp only [List.mem_append, memU, memL, memR, memD, inSq, sqLow] at h1 h2
          rcases h2 with h2 | h2 | h2 <;> omega
    | RIGHT =>
      have hdec : hilbertDirs (m + 1 + 1) .RIGHT =
          hilbertDirs (m + 1) .DOWN ++ .LEFT ::
            (hilbertDirs (m + 1) .RIGHT ++ .UP ::
              (hilbertDirs (m + 1) .RIGHT ++ .RIGHT :: hilbertDirs (m + 1) .UP)) := by
        simp [hilbertDirs]
      refine ⟨?_, ?_, ?_⟩
      · rw [hdec, endPos_split, endPos_split, endPos_split]
        simp only [endD, endR, endU, endOf, moveStep]
        simp [Prod.ext_iff]
        omega
      · intro q
        rw [hdec, visitsFull_split, visitsFull_split, visitsFull_split]
        simp only [endD, endR, endU, endOf, moveStep, List.mem_append,
          memU, memL, memR, memD, inSq, sqLow]
        omega
      · rw [hdec, visitsFull_split, visitsFull_split, visitsFull_split]
        simp only [endD, endR, endU, endOf, moveStep]
        refine List.Nodup.append (ndD _) (List.Nodup.append (ndR _)
          (List.Nodup.append (ndR _) (ndU _) ?_) ?_) ?_
        · intro a h1 h2
          simp only [memU, memL, memR, memD, inSq, sqLow] at h1 h2
          omega
        · intro a h1 h2
          simp only [List.mem_append, memU, memL, memR, memD, inSq, sqLow] at h1 h2
          rcases h2 with h2 | h2 <;> omega
        · intro a h1 h2
          simp only [List.mem_append, memU, memL, memR, memD, inSq, sqLow] at h1 h2
          rcases h2 with h2 | h2 | h2 <;> omega
    | DOWN =>
      have hdec : hilbertDirs (m + 1 + 1) .DOWN =
          hilbertDirs (m + 1) .RIGHT ++ .UP ::
            (hilbertDirs (m + 1) .DOWN ++ .LEFT ::
              (hilbertDirs (m + 1) .DOWN ++ .DOWN :: hilbertDirs (m + 1) .LEFT)) := by
        simp [hilbertDirs]
      refine ⟨?_, ?_, ?_⟩
      · rw [hdec, endPos_split, endPos_split, endPos_split]
        simp only [endR, endD, endL, endOf, moveStep]
        simp [Prod.ext_iff]
        omega
      · intro q
        rw [hdec, visitsFull_split, visitsFull_split, visitsFull_split]
        simp only [endR, endD, endL, endOf, moveStep, List.mem_append,
          memU, memL, memR, memD, inSq, sqLow]
        omega
      · rw [hdec, visitsFull_split, visitsFull_split, visitsFull_split]
        simp only [endR, endD, endL, endOf, moveStep]
        refine List.Nodup.append (ndR _) (List.Nodup.append (ndD _)
          (List.Nodup.append (ndD _) (ndL _) ?_) ?_) ?_
        · intro a h1 h2
          simp only [memU, memL, memR, memD, inSq, sqLow] at h1 h2
          omega
        · intro a h1 h2
          simp only [List.mem_append, memU, memL, memR, memD, inSq, sqLow] at h1 h2
          rcases h2 with h2 | h2 <;> omega
        · intro a h1 h2
          simp only [List.mem_append, memU, memL, memR, memD, inSq, sqLow] at h1 h2
          rcases h2 with h2 | h2 | h2 <;> omega

/-! Engine-step lemmas. -/

theorem move_eq_pos (rs : Op) (d : Dir) (img : ImageM)
    (h : 0 ≤ rs.x ∧ rs.x < img.size.1 ∧ 0 ≤ rs.y ∧ rs.y < img.size.2) :
    rs.move d img =
      { rs with
        errors := rs.errors.Rotate
          (DitherPixel img rs.x rs.y (rs.AccumulatedError img.numChannels)).2,
        writes := rs.writes ++ [((rs.x, rs.y),
          (DitherPixel img rs.x rs.y (rs.AccumulatedError img.numChannels)).1)],
        x := (moveStep d (rs.x, rs.y)).1,
        y := (moveStep d (rs.x, rs.y)).2 } := by
  unfold Op.move
  rw [if_pos h]
  cases d <;> simp [moveStep]

theorem move_eq_neg (rs : Op) (d : Dir) (img : ImageM)
    (h : ¬(0 ≤ rs.x ∧ rs.x < img.size.1 ∧ 0 ≤ rs.y ∧ rs.y < img.size.2)) :
    rs.move d img =
      { rs with
        x := (moveStep d (rs.x, rs.y)).1,
        y := (moveStep d (rs.x, rs.y)).2 } := by
  unfold Op.move
  rw [if_neg h]
  cases d <;> simp [moveStep]

theorem runDirs_cons (rs : Op) (d : Dir) (ds : List Dir) (img : ImageM) :
    rs.runDirs (d :: ds) img = (rs.move d img).runDirs ds img := rfl

theorem runDirs_append (rs : Op) (l1 l2 : List Dir) (img : ImageM) :
    rs.runDirs (l1 ++ l2) img = (rs.runDirs l1 img).runDirs l2 img := by
  simp [Op.runDirs, List.foldl_append]

/-- The recursive `hilbertLevel` is the sequential execution of its
move sequence `hilbertDirs`. -/
theorem hilbertLevel_eq_runDirs (l : ℕ) :
    ∀ (rs : Op) (d : Dir) (img : ImageM),
      rs.hilbertLevel l d img = rs.runDirs (hilbertDirs l d) img := by
  induction l using Nat.strong_induction_on with
  | _ l IH =>
    match l with
    | 0 => intro rs d img; cases d <;> rfl
    | 1 =>
      intro rs d img
      cases d <;> simp [Op.hilbertLevel, hilbertDirs, Op.runDirs]
    | n + 2 =>
      intro rs d img
      have ih := IH (n + 1) (by omega)
      cases d <;>
        simp [Op.hilbertLevel, hilbertDirs, Op.runDirs, List.foldl_append, ih]

/-- The cursor positions written by a run are the visited positions
that lie inside the image bounds, appended to the prior log. -/
theorem runDirs_writes (img : ImageM) (ds : List Dir) :
    ∀ rs : Op,
      ((rs.runDirs ds img).writes).map Prod.fst =
        rs.writes.map Prod.fst ++ (visits ds (rs.x, rs.y)).filter (inBoundsB img) := by
  induction ds with
  | nil => intro rs; simp [Op.runDirs, visits]
  | cons d ds ih =>
    intro rs
    rw [runDirs_cons, ih]
    by_cases h : 0 ≤ rs.x ∧ rs.x < img.size.1 ∧ 0 ≤ rs.y ∧ rs.y < img.size.2
    · rw [move_eq_pos rs d img h]
      simp [visits, List.filter_cons, inBoundsB, h, Prod.mk.eta]
    · rw [move_eq_neg rs d img h]
      simp [visits, List.filter_cons, inBoundsB, h, Prod.mk.eta]

/-- A run over an image with an empty dimension performs no dithering:
the write log and the error history come through unchanged. -/
theorem runDirs_skip (img : ImageM) (h : img.size.1 = 0 ∨ img.size.2 = 0) (ds : List Dir) :
    ∀ rs : Op, (rs.runDirs ds img).writes = rs.writes ∧
      (rs.runDirs ds img).errors = rs.errors := by
  induction ds with
  | nil => intro rs; exact ⟨rfl, rfl⟩
  | cons d ds ih =>
    intro rs
    have hnb : ¬(0 ≤ rs.x ∧ rs.x < img.size.1 ∧ 0 ≤ rs.y ∧ rs.y < img.size.2) := by
      rcases h with h | h <;> omega
    rw [runDirs_cons, move_eq_neg rs d img hnb]
    exact ih _

/-! Error-history lemmas. -/

theorem set_append_cons {α : Type} (a : List α) (x : α) (b : List α) (v : α) :
    (a ++ x :: b).set a.length v = a ++ v :: b := by
  induction a with
  | nil => rfl
  | cons y a ih => simp [List.set, ih]

/-- State of a fresh capacity-`N` history after rotating in `ws`
(for `ws` no longer than the capacity): the written values in write
order, padded with never-written slots, and the cursor one past the
last write (wrapped). -/
theorem rotateAll_state (N : ℕ) (hN : 1 ≤ N) :
    ∀ ws : List ColorError, ws.length ≤ N →
      (rotateAll (newErrorList N) ws).err =
        ws.map some ++ List.replicate (N - ws.length) none ∧
      (rotateAll (newErrorList N) ws).head = ws.length % N := by
  intro ws
  induction ws using List.reverseRecOn with
  | nil =>
    intro _
    simp [rotateAll, newErrorList, Nat.zero_mod]
  | append_singleton ws w ih =>
    intro hlen
    have hwslt : ws.length < N := by
      simp only [List.length_append, List.length_singleton] at hlen
      omega
    obtain ⟨he, hh⟩ := ih (by omega)
    unfold rotateAll at he hh ⊢
    rw [List.foldl_append, List.foldl_cons, List.foldl_nil]
    have hlenerr : (List.foldl errorList.Rotate (newErrorList N) ws).err.length = N := by
      rw [he]
      simp
      omega
    constructor
    · show ((List.foldl errorList.Rotate (newErrorList N) ws).err.set _ _) = _
      rw [he, hh, Nat.mod_eq_of_lt hwslt]
      have hrep : N - ws.length = (N - (ws.length + 1)) + 1 := by omega
      rw [hrep, List.replicate_succ]
      have hml : ws.length = (ws.map some).length := by simp
      rw [hml, set_append_cons]
      simp
    · show (if _ + 1 ≥ _ then 0 else _ + 1) = _
      rw [hh, hlenerr, Nat.mod_eq_of_lt hwslt]
      simp only [List.length_append, List.length_singleton]
      by_cases hend : ws.length + 1 = N
      · rw [if_pos (by omega), hend, Nat.mod_self]
      · rw [if_neg (by omega), Nat.mod_eq_of_lt (by omega)]

/-- After exactly `N` rotations of a fresh capacity-`N` history,
`Get i` returns the `i`-th **oldest** write. -/
theorem get_after_fill (N : ℕ) (hN : 1 ≤ N) (ws : List ColorError)
    (hlen : ws.length = N) (i : ℕ) (hi : i < N) :
    (rotateAll (newErrorList N) ws).Get i = some (ws.getD i []) := by
  obtain ⟨he, hh⟩ := rotateAll_state N hN ws (by omega)
  rw [errorList.Get, he, hh, hlen]
  simp only [Nat.mod_self, Nat.sub_self, List.replicate_zero, List.append_nil,
    Nat.zero_add]
  have hlt : i % N < ws.length := by
    rw [hlen]
    exact Nat.mod_lt _ (by omega)
  rw [Nat.mod_eq_of_lt (by simpa [hlen] using hi)] at hlt ⊢
  simp [List.getD_eq_getElem?_getD, List.getElem?_map,
    List.getElem?_eq_getElem hlt]

/-- After `N + 1` rotations of a fresh capacity-`N` history, the first
write has been evicted: `Get i` returns the `(i+1)`-th entry of the
write sequence. -/
theorem get_after_overfill (N : ℕ) (hN : 1 ≤ N) (ws : List ColorError)
    (hlen : ws.length = N) (w' : ColorError) (i : ℕ) (hi : i < N) :
    (rotateAll (newErrorList N) (ws ++ [w'])).Get i =
      some ((ws ++ [w']).getD (i + 1) []) := by
  obtain ⟨he, hh⟩ := rotateAll_state N hN ws (by omega)
  unfold rotateAll at he hh ⊢
  rw [List.foldl_append, List.foldl_cons, List.foldl_nil]
  rw [errorList.Get]
  simp only [errorList.Rotate, he, hh, hlen, Nat.mod_self, Nat.sub_self,
    List.replicate_zero, List.append_nil, List.length_set, List.length_map]
  by_cases hN1 : N = 1
  · subst hN1
    have hi0 : i = 0 := by omega
    subst hi0
    obtain ⟨w0, rfl⟩ : ∃ w0, ws = [w0] := by
      cases ws with
      | nil => simp at hlen
      | cons a t =>
        cases t with
        | nil => exact ⟨a, rfl⟩
        | cons b t2 => simp at hlen
    simp [List.getD_eq_getElem?_getD]
  · rw [if_neg (by omega)]
    by_cases hlast : i + 1 = N
    · have : (1 + i) % N = 0 := by
        rw [show 1 + i = N by omega]
        exact Nat.mod_self N
      rw [this]
      rw [List.getD_eq_getElem?_getD,
        List.getElem?_set_eq_of_lt _ (by simp [hlen]; omega)]
      have : (ws ++ [w']).getD (i + 1) [] = w' := by
        rw [hlast]
        rw [show N = ws.length from hlen.symm]
        simp [List.getD_eq_getElem?_getD, List.getElem?_append]
      rw [this]
      rfl
    · have h1i : (1 + i) % N = 1 + i := Nat.mod_eq_of_lt (by omega)
      rw [h1i]
      rw [List.getD_eq_getElem?_getD, List.getElem?_set_ne (by omega)]
      have hlt : 1 + i < ws.length := by omega
      rw [List.getElem?_map, List.getElem?_eq_getElem hlt]
      have : (ws ++ [w']).getD (i + 1) [] = ws.getD (i + 1) [] := by
        simp [List.getD_eq_getElem?_getD, List.getElem?_append,
          show i + 1 < ws.length by omega]
      rw [this]
      simp [List.getD_eq_getElem?_getD, List.getElem?_eq_getElem
        (show i + 1 < ws.length by omega), Nat.add_comm]

/-! Weight-table and invariant lemmas. -/

theorem initWeightsGo_length (m : ℚ) :
    ∀ (n : ℕ) (v : ℚ), (initWeightsGo m n v).length = n
  | 0, _ => rfl
  | n + 1, v => by simp [initWeightsGo, initWeightsGo_length m n]

theorem Inv_move (img : ImageM) (rs : Op) (d : Dir) (h : Inv rs) :
    Inv (rs.move d img) := by
  by_cases hb : 0 ≤ rs.x ∧ rs.x < img.size.1 ∧ 0 ≤ rs.y ∧ rs.y < img.size.2
  · rw [move_eq_pos rs d img hb]
    obtain ⟨h1, h2⟩ := h
    unfold Inv errorList.Size at *
    simp only [errorList.Rotate, List.length_set]
    refine ⟨?_, h2⟩
    split <;> omega
  · rw [move_eq_neg rs d img hb]
    exact h

theorem Inv_runDirs (img : ImageM) (ds : List Dir) :
    ∀ rs : Op, Inv rs → Inv (rs.runDirs ds img) := by
  induction ds with
  | nil => intro rs h; exact h
  | cons d ds ih =>
    intro rs h
    rw [runDirs_cons]
    exact ih _ (Inv_move img rs d h)

theorem Dither_eq (rs : Op) (img : ImageM) :
    rs.Dither img =
      (if 0 < ditherLevel img then
        rs.runDirs (hilbertDirs (ditherLevel img) .UP) img
      else rs).move .NONE img := by
  unfold Op.Dither
  simp only [hilbertLevel_eq_runDirs]

theorem Inv_Dither (img : ImageM) (rs : Op) (h : Inv rs) :
    Inv (rs.Dither img) := by
  rw [Dither_eq]
  apply Inv_move
  split
  · exact Inv_runDirs img _ rs h
  · exact h

/-! Zero-error (full-fidelity sink) lemmas. -/

theorem zeroVec_getD (j : ℕ) : ([0, 0, 0, 0] : List ℚ).getD j 0 = 0 := by
  rcases j with _ | _ | _ | _ | j <;> rfl

theorem accChannel_zero (rs : Op) (j : ℕ) (hz : ZeroErrors rs.errors) :
    accChannel rs j = 0 := by
  unfold accChannel
  have key : ∀ (l : List ℕ) (a : ℚ),
      List.foldl (fun a i =>
        match rs.errors.Get i with
        | none => a
        | some e => a + e.getD j 0 * rs.Weights.getD i 0) a l = a := by
    intro l
    induction l with
    | nil => intro a; rfl
    | cons i t ih =>
      intro a
      rw [List.foldl_cons]
      have hstep : (match rs.errors.Get i with
          | none => a
          | some e => a + e.getD j 0 * rs.Weights.getD i 0) = a := by
        rcases hget : rs.errors.Get i with _ | e
        · rfl
        · have hmem : some e ∈ rs.errors.err := by
            rw [errorList.Get, List.getD_eq_getElem?_getD] at hget
            rcases hidx : rs.errors.err[(rs.errors.head + i) % rs.errors.err.length]? with
              _ | o
            · rw [hidx] at hget
              exact absurd hget (by simp)
            · rw [hidx] at hget
              simp only [Option.getD_some] at hget
              rw [← hget]
              exact List.getElem?_mem hidx
          rcases hz _ hmem with h | h
          · exact absurd h (by simp)
          · have he : e = [0, 0, 0, 0] := by
              injection h
            simp [he]
            left
            rcases j with _ | _ | _ | _ | j <;> rfl
      rw [hstep]
      exact ih a
  rw [key]
  simp

theorem AccumulatedError_zero (rs : Op) (hz : ZeroErrors rs.errors) :
    rs.AccumulatedError 4 = [0, 0, 0, 0] := by
  unfold Op.AccumulatedError
  rw [show List.range 4 = [0, 1, 2, 3] from rfl]
  simp [accChannel_zero rs _ hz]

theorem clamp_of_range (i : ℤ) (h0 : 0 ≤ i) (h1 : i ≤ 0xffff) : clamp i = i := by
  unfold clamp
  rw [if_neg (by omega), if_neg (by omega)]

theorem rnd_zero : rnd 0 = 0 := by
  norm_num [rnd]

theorem DitherPixel_zero (img : ImageM) (hq : ∀ x y c, img.quantize x y c = c)
    (hsrc : ∀ x y, (img.src x y).InRange) (x y : ℤ) :
    (DitherPixel img x y [0, 0, 0, 0]).1 = img.src x y ∧
    (DitherPixel img x y [0, 0, 0, 0]).2 = [0, 0, 0, 0] := by
  obtain ⟨hr0, hr1, hg0, hg1, hb0, hb1, ha0, ha1⟩ := hsrc x y
  have hnc : propose (img.src x y) [0, 0, 0, 0] = img.src x y := by
    unfold propose
    simp only [zeroVec_getD, rnd_zero, add_zero]
    rw [clamp_of_range _ hr0 hr1, clamp_of_range _ hg0 hg1,
      clamp_of_range _ hb0 hb1, clamp_of_range _ ha0 ha1]
  unfold DitherPixel
  simp [hnc, hq]

theorem ZeroErrors_Rotate (el : errorList) (v : ColorError) (hz : ZeroErrors el)
    (hv : v = [0, 0, 0, 0]) : ZeroErrors (el.Rotate v) := by
  intro o ho
  rcases List.mem_or_eq_of_mem_set ho with h | h
  · exact hz o h
  · right
    rw [h, hv]

theorem ZeroErrors_move (img : ImageM) (hq : ∀ x y c, img.quantize x y c = c)
    (hsrc : ∀ x y, (img.src x y).InRange) (h4 : img.numChannels = 4)
    (rs : Op) (d : Dir) (hz : ZeroErrors rs.errors) :
    ZeroErrors (rs.move d img).errors ∧
      ((rs.move d img).writes = rs.writes ∨
        (rs.move d img).writes =
          rs.writes ++ [((rs.x, rs.y), img.src rs.x rs.y)]) := by
  by_cases hb : 0 ≤ rs.x ∧ rs.x < img.size.1 ∧ 0 ≤ rs.y ∧ rs.y < img.size.2
  · rw [move_eq_pos rs d img hb]
    rw [h4, AccumulatedError_zero rs hz]
    obtain ⟨h1, h2⟩ := DitherPixel_zero img hq hsrc rs.x rs.y
    constructor
    · exact ZeroErrors_Rotate _ _ hz h2
    · right
      rw [h1]
  · rw [move_eq_neg rs d img hb]
    exact ⟨hz, Or.inl rfl⟩

theorem ZeroErrors_runDirs (img : ImageM) (hq : ∀ x y c, img.quantize x y c = c)
    (hsrc : ∀ x y, (img.src x y).InRange) (h4 : img.numChannels = 4)
    (ds : List Dir) :
    ∀ rs : Op, ZeroErrors rs.errors →
      ZeroErrors ((rs.runDirs ds img).errors) ∧
      (∀ w ∈ (rs.runDirs ds img).writes,
        w ∈ rs.writes ∨ w.2 = img.src w.1.1 w.1.2) := by
  induction ds with
  | nil => intro rs hz; exact ⟨hz, fun w hw => Or.inl hw⟩
  | cons d ds ih =>
    intro rs hz
    rw [runDirs_cons]
    obtain ⟨hz', hws'⟩ := ZeroErrors_move img hq hsrc h4 rs d hz
    obtain ⟨hzr, hwr⟩ := ih (rs.move d img) hz'
    refine ⟨hzr, fun w hw => ?_⟩
    rcases hwr w hw with hmem | hsrcw
    · rcases hws' with he | he
      · rw [he] at hmem
        exact Or.inl hmem
      · rw [he, List.mem_append] at hmem
        rcases hmem with hmem | hmem
        · exact Or.inl hmem
        · right
          simp only [List.mem_singleton] at hmem
          rw [hmem]
    · exact Or.inr hsrcw

/-! Accumulated-error arithmetic. -/

theorem accChannel_eq_sum (rs : Op) (j : ℕ) :
    accChannel rs j = accSumC rs j := by
  unfold accChannel accSumC
  congr 1
  have key : ∀ (l : List ℕ) (a : ℚ),
      List.foldl (fun a i =>
        match rs.errors.Get i with
        | none => a
        | some e => a + e.getD j 0 * rs.Weights.getD i 0) a l
        = a + (l.map (fun i =>
            match rs.errors.Get i with
            | none => 0
            | some e => e.getD j 0 * rs.Weights.getD i 0)).sum := by
    intro l
    induction l with
    | nil => intro a; simp
    | cons i t ih =>
      intro a
      rw [List.foldl_cons, ih, List.map_cons, List.sum_cons]
      rcases rs.errors.Get i with _ | e
      · simp
      · ring
  rw [key]
  simp

/-! Whole-run helpers. -/

theorem ditherLevel_pow (l : ℕ) (img : ImageM)
    (hsz : img.size = ((2 : ℤ) ^ l, (2 : ℤ) ^ l)) : ditherLevel img = l := by
  unfold ditherLevel log2
  rw [hsz]
  simp only [max_self]
  have h1 : ((2 : ℤ) ^ l).toNat = 2 ^ l := by
    rw [show ((2 : ℤ) ^ l) = ((2 ^ l : ℕ) : ℤ) by push_cast; ring, Int.toNat_natCast]
  rw [h1, Nat.log2_two_pow, if_neg (lt_irrefl _)]

/-- Running `Dither` from cursor `(0,0)` over an exactly
square-power-of-two image appends the full Hilbert visit sequence to
the write log: the traversal square coincides with the image, so no
visit is skipped. -/
theorem square_run_writes (level : ℕ) (hl : 1 ≤ level) (img : ImageM)
    (hsz : img.size = ((2 : ℤ) ^ level, (2 : ℤ) ^ level)) (rs : Op)
    (hx : rs.x = 0) (hy : rs.y = 0) :
    (rs.Dither img).writes.map Prod.fst =
      rs.writes.map Prod.fst ++ visitsFull (hilbertDirs level .UP) (0, 0) := by
  have hlev : ditherLevel img = level := ditherLevel_pow level img hsz
  rw [Dither_eq, hlev, if_pos (by omega)]
  have hmv : ((rs.runDirs (hilbertDirs level .UP) img).move .NONE img) =
      rs.runDirs (hilbertDirs level .UP ++ [.NONE]) img := by
    rw [runDirs_append]
    rfl
  rw [hmv, runDirs_writes, hx, hy]
  congr 1
  rw [visits_append]
  have hshape : visits (hilbertDirs level .UP) (0, 0) ++
      visits [Dir.NONE] (endPos (hilbertDirs level .UP) (0, 0)) =
      visitsFull (hilbertDirs level .UP) (0, 0) := by
    simp [visits, visitsFull]
  rw [hshape, List.filter_eq_self.mpr]
  intro a ha
  have hmem := ((hilbert_geom level hl .UP (by simp) (0, 0)).2.1 a).1 ha
  simp only [inSq, sqLow] at hmem
  have hge : (1 : ℤ) ≤ 2 ^ level := one_le_pow₀ (by norm_num)
  simp only [inBoundsB, hsz, decide_eq_true_eq]
  omega

theorem ZeroErrors_new (qs : ℕ) : ZeroErrors (newErrorList qs) := by
  intro o ho
  left
  exact List.eq_of_mem_replicate ho

theorem rnd_one : rnd 1 = 1 := by
  norm_num [rnd]

/-! Claim theorems. -/

/-- C1: for every `level ≥ 1`, the engine's Hilbert traversal —
`Dither` on a square image of side `2^level`, i.e.
`hilbertLevel(level, dirUP)` from cursor `(0,0)` followed by the final
no-move step — dithers every integer coordinate of
`[0, 2^level) × [0, 2^level)` exactly once (no duplicates, no
omissions), beginning at `(0,0)`. -/
theorem C1_traversal_exactly_once (level : ℕ) (hl : 1 ≤ level)
    (img : ImageM) (hsz : img.size = ((2 : ℤ) ^ level, (2 : ℤ) ^ level))
    (qs : ℕ) (hqs : 1 ≤ qs) (r m : ℚ) :
    (visitsFull (hilbertDirs level .UP) (0, 0)).head? = some (0, 0) ∧
    (visitsFull (hilbertDirs level .UP) (0, 0)).Nodup ∧
    (∀ q : ℤ × ℤ, q ∈ visitsFull (hilbertDirs level .UP) (0, 0) ↔
      0 ≤ q.1 ∧ q.1 < 2 ^ level ∧ 0 ≤ q.2 ∧ q.2 < 2 ^ level) ∧
    ((NewOperation qs r m).Dither img).writes.map Prod.fst =
      visitsFull (hilbertDirs level .UP) (0, 0) := by
  obtain ⟨hend, hmem, hnd⟩ := hilbert_geom level hl .UP (by simp) (0, 0)
  have hge : (1 : ℤ) ≤ 2 ^ level := one_le_pow₀ (by norm_num)
  refine ⟨visitsFull_head _ _, hnd, ?_, ?_⟩
  · intro q
    rw [hmem q]
    simp only [inSq, sqLow]
    omega
  · have := square_run_writes level hl img hsz (NewOperation qs r m) rfl rfl
    simpa [NewOperation] using this

/-- C1 witness at `level = 1` with a concrete 2×2 image. -/
theorem C1_traversal_exactly_once_witness :
    (1 ≤ 1 ∧ ((⟨(2, 2), 4, fun _ _ => ⟨0, 0, 0, 0⟩, fun _ _ c => c⟩ : ImageM)).size
        = ((2 : ℤ) ^ 1, (2 : ℤ) ^ 1) ∧ 1 ≤ 1) ∧
    ((visitsFull (hilbertDirs 1 .UP) (0, 0)).head? = some (0, 0) ∧
    (visitsFull (hilbertDirs 1 .UP) (0, 0)).Nodup ∧
    (∀ q : ℤ × ℤ, q ∈ visitsFull (hilbertDirs 1 .UP) (0, 0) ↔
      0 ≤ q.1 ∧ q.1 < 2 ^ 1 ∧ 0 ≤ q.2 ∧ q.2 < 2 ^ 1) ∧
    ((NewOperation 1 16 1).Dither
        (⟨(2, 2), 4, fun _ _ => ⟨0, 0, 0, 0⟩, fun _ _ c => c⟩ : ImageM)).writes.map
        Prod.fst = visitsFull (hilbertDirs 1 .UP) (0, 0)) :=
  ⟨⟨le_refl 1, by norm_num, le_refl 1⟩,
    C1_traversal_exactly_once 1 (le_refl 1) _ (by norm_num) 1 (le_refl 1) 16 1⟩

/-- C5: on a 2×2 image (level 1, orientation UP) the engine dithers
exactly the four pixels `(0,0), (0,1), (1,1), (1,0)` in this order; the
fourth is covered by the final no-move (`dirNONE`) visit `Dither`
always performs after the recursive expansion, which only dithers the
first three. -/
theorem C5_two_by_two_order (img : ImageM) (hsz : img.size = (2, 2))
    (qs : ℕ) (hqs : 1 ≤ qs) (r m : ℚ) :
    ((NewOperation qs r m).Dither img).writes.map Prod.fst =
      [(0, 0), (0, 1), (1, 1), (1, 0)] ∧
    (NewOperation qs r m).Dither img =
      ((NewOperation qs r m).hilbertLevel 1 .UP img).move .NONE img ∧
    ((NewOperation qs r m).hilbertLevel 1 .UP img).writes.map Prod.fst =
      [(0, 0), (0, 1), (1, 1)] := by
  have hsz' : img.size = ((2 : ℤ) ^ 1, (2 : ℤ) ^ 1) := by
    rw [hsz]
    norm_num
  have hlev : ditherLevel img = 1 := ditherLevel_pow 1 img hsz'
  refine ⟨?_, ?_, ?_⟩
  · have := square_run_writes 1 (le_refl 1) img hsz' (NewOperation qs r m) rfl rfl
    rw [this]
    rfl
  · simp [Op.Dither, hlev]
  · rw [hilbertLevel_eq_runDirs, runDirs_writes]
    show _ = [] ++ _
    congr 1
    rw [show (NewOperation qs r m).x = 0 from rfl,
      show (NewOperation qs r m).y = 0 from rfl]
    show (visits [Dir.DOWN, Dir.RIGHT, Dir.UP] (0, 0)).filter (inBoundsB img) = _
    simp [visits, moveStep, inBoundsB, hsz, List.filter]

/-- C5 witness with a concrete 2×2 image. -/
theorem C5_two_by_two_order_witness :
    ((⟨(2, 2), 4, fun _ _ => ⟨0, 0, 0, 0⟩, fun _ _ c => c⟩ : ImageM).size = (2, 2) ∧
      1 ≤ 1) ∧
    (((NewOperation 1 16 1).Dither
        (⟨(2, 2), 4, fun _ _ => ⟨0, 0, 0, 0⟩, fun _ _ c => c⟩ : ImageM)).writes.map
        Prod.fst = [(0, 0), (0, 1), (1, 1), (1, 0)]) :=
  ⟨⟨rfl, le_refl 1⟩,
    (C5_two_by_two_order _ rfl 1 (le_refl 1) 16 1).1⟩

/-- C6: when the cursor is outside `[0, width) × [0, height)`, `move`
performs no dithering: the sink is not called (write log unchanged),
the error history is not modified, the ratio and weights are untouched,
and only the cursor advances one step in the given direction. -/
theorem C6_out_of_bounds_skip (img : ImageM) (rs : Op) (d : Dir)
    (h : ¬(0 ≤ rs.x ∧ rs.x < img.size.1 ∧ 0 ≤ rs.y ∧ rs.y < img.size.2)) :
    (rs.move d img).writes = rs.writes ∧
    (rs.move d img).errors = rs.errors ∧
    (rs.move d img).Ratio = rs.Ratio ∧
    (rs.move d img).Weights = rs.Weights ∧
    (rs.move d img).x = (moveStep d (rs.x, rs.y)).1 ∧
    (rs.move d img).y = (moveStep d (rs.x, rs.y)).2 := by
  rw [move_eq_neg rs d img h]
  exact ⟨rfl, rfl, rfl, rfl, rfl, rfl⟩

/-- C6 witness: a cursor right of a 2×2 image. -/
theorem C6_out_of_bounds_skip_witness :
    (¬(0 ≤ ({ NewOperation 1 16 1 with x := 5 } : Op).x ∧
        ({ NewOperation 1 16 1 with x := 5 } : Op).x <
          (⟨(2, 2), 4, fun _ _ => ⟨0, 0, 0, 0⟩, fun _ _ c => c⟩ : ImageM).size.1 ∧
        0 ≤ ({ NewOperation 1 16 1 with x := 5 } : Op).y ∧
        ({ NewOperation 1 16 1 with x := 5 } : Op).y <
          (⟨(2, 2), 4, fun _ _ => ⟨0, 0, 0, 0⟩, fun _ _ c => c⟩ : ImageM).size.2)) ∧
    (({ NewOperation 1 16 1 with x := 5 } : Op).move .RIGHT
        (⟨(2, 2), 4, fun _ _ => ⟨0, 0, 0, 0⟩, fun _ _ c => c⟩ : ImageM)).writes =
      ({ NewOperation 1 16 1 with x := 5 } : Op).writes ∧
    (({ NewOperation 1 16 1 with x := 5 } : Op).move .RIGHT
        (⟨(2, 2), 4, fun _ _ => ⟨0, 0, 0, 0⟩, fun _ _ c => c⟩ : ImageM)).errors =
      ({ NewOperation 1 16 1 with x := 5 } : Op).errors ∧
    (({ NewOperation 1 16 1 with x := 5 } : Op).move .RIGHT
        (⟨(2, 2), 4, fun _ _ => ⟨0, 0, 0, 0⟩, fun _ _ c => c⟩ : ImageM)).x = 6 :=
  have h : ¬(0 ≤ ({ NewOperation 1 16 1 with x := 5 } : Op).x ∧
      ({ NewOperation 1 16 1 with x := 5 } : Op).x <
        (⟨(2, 2), 4, fun _ _ => ⟨0, 0, 0, 0⟩, fun _ _ c => c⟩ : ImageM).size.1 ∧
      0 ≤ ({ NewOperation 1 16 1 with x := 5 } : Op).y ∧
      ({ NewOperation 1 16 1 with x := 5 } : Op).y <
        (⟨(2, 2), 4, fun _ _ => ⟨0, 0, 0, 0⟩, fun _ _ c => c⟩ : ImageM).size.2) := by
    decide
  have hc := C6_out_of_bounds_skip _ ({ NewOperation 1 16 1 with x := 5 } : Op) .RIGHT h
  ⟨h, hc.1, hc.2.1, by rw [hc.2.2.2.2.1]; decide⟩

/-- C8: for every `capacity ≥ 1` (and any multiplier, hence any
`ratio > 0`), `initWeights` returns a sequence of length exactly
`capacity` whose first element is `1.0`; for `capacity = 1` in
particular the Go float division `log(ratio)/0.0` yields `±Inf`/`NaN`
without any runtime error, and the single produced weight is still
`round(1.0) = 1.0`. -/
theorem C8_initWeights_first_one (size : ℕ) (h : 1 ≤ size) (m : ℚ) :
    (initWeights size m).length = size ∧ (initWeights size m).getD 0 0 = 1 := by
  refine ⟨initWeightsGo_length m size 1, ?_⟩
  obtain ⟨n, rfl⟩ : ∃ n, size = n + 1 := ⟨size - 1, by omega⟩
  show (initWeightsGo m (n + 1) 1).getD 0 0 = 1
  simp [initWeightsGo, rnd_one]

/-- C8 witness at the degenerate capacity 1. -/
theorem C8_initWeights_first_one_witness :
    (1 ≤ 1 ∧ (initWeights 1 0).length = 1 ∧ (initWeights 1 0).getD 0 0 = 1) ∧
    (1 ≤ 16 ∧ (initWeights 16 (6 / 5)).length = 16 ∧
      (initWeights 16 (6 / 5)).getD 0 0 = 1) :=
  ⟨⟨le_refl 1, C8_initWeights_first_one 1 (le_refl 1) 0⟩,
    ⟨by norm_num, C8_initWeights_first_one 16 (by norm_num) (6 / 5)⟩⟩

/-- C9: over an empty traversal region (effective width or height 0) a
run of the engine dithers zero pixels — no sink call is logged and the
error history is untouched — and returns normally. -/
theorem C9_empty_region (img : ImageM) (h : img.size.1 = 0 ∨ img.size.2 = 0)
    (rs : Op) :
    (rs.Dither img).writes = rs.writes ∧ (rs.Dither img).errors = rs.errors := by
  rw [Dither_eq]
  by_cases hl : 0 < ditherLevel img
  · rw [if_pos hl]
    obtain ⟨hw, he⟩ := runDirs_skip img h (hilbertDirs (ditherLevel img) .UP) rs
    have hnb : ¬(0 ≤ (rs.runDirs (hilbertDirs (ditherLevel img) .UP) img).x ∧
        (rs.runDirs (hilbertDirs (ditherLevel img) .UP) img).x < img.size.1 ∧
        0 ≤ (rs.runDirs (hilbertDirs (ditherLevel img) .UP) img).y ∧
        (rs.runDirs (hilbertDirs (ditherLevel img) .UP) img).y < img.size.2) := by
      rcases h with h | h <;> rw [h] <;> omega
    rw [move_eq_neg _ _ _ hnb]
    exact ⟨hw, he⟩
  · rw [if_neg hl]
    have hnb : ¬(0 ≤ rs.x ∧ rs.x < img.size.1 ∧ 0 ≤ rs.y ∧ rs.y < img.size.2) := by
      rcases h with h | h <;> rw [h] <;> omega
    rw [move_eq_neg _ _ _ hnb]
    exact ⟨rfl, rfl⟩

/-- C9 witness: a 0×5 region. -/
theorem C9_empty_region_witness :
    ((⟨(0, 5), 4, fun _ _ => ⟨0, 0, 0, 0⟩, fun _ _ c => c⟩ : ImageM).size.1 = 0 ∨
      (⟨(0, 5), 4, fun _ _ => ⟨0, 0, 0, 0⟩, fun _ _ c => c⟩ : ImageM).size.2 = 0) ∧
    ((NewOperation 2 16 1).Dither
        (⟨(0, 5), 4, fun _ _ => ⟨0, 0, 0, 0⟩, fun _ _ c => c⟩ : ImageM)).writes =
      (NewOperation 2 16 1).writes ∧
    ((NewOperation 2 16 1).Dither
        (⟨(0, 5), 4, fun _ _ => ⟨0, 0, 0, 0⟩, fun _ _ c => c⟩ : ImageM)).errors =
      (NewOperation 2 16 1).errors :=
  ⟨Or.inl rfl, C9_empty_region _ (Or.inl rfl) (NewOperation 2 16 1)⟩

/-- C10: for every engine built with `queueSize ≥ 1` the
indexing-safety invariant holds at construction and is preserved by
every `move` and by `Dither`; under it, the write cursor stays in
`[0, queueSize)`, every `Get` index `(head+i) % size` is in range,
and `len(Weights) = errors.Size()` makes the `Weights[i]` access in
`AccumulatedError` in range for every slot index `i < errors.Size()`. -/
theorem C10_indexing_safety (qs : ℕ) (hqs : 1 ≤ qs) (r m : ℚ) :
    Inv (NewOperation qs r m) ∧
    (∀ (img : ImageM) (rs : Op) (d : Dir), Inv rs → Inv (rs.move d img)) ∧
    (∀ (img : ImageM) (rs : Op), Inv rs → Inv (rs.Dither img)) ∧
    (∀ rs : Op, Inv rs →
      rs.errors.head < rs.errors.Size ∧
      (∀ i, (rs.errors.head + i) % rs.errors.Size < rs.errors.Size) ∧
      (∀ i, i < rs.errors.Size → i < rs.Weights.length)) := by
  refine ⟨?_, fun img rs d h => Inv_move img rs d h,
    fun img rs h => Inv_Dither img rs h, fun rs h => ?_⟩
  · unfold Inv NewOperation newErrorList errorList.Size initWeights
    simp [initWeightsGo_length]
    omega
  · obtain ⟨h1, h2⟩ := h
    exact ⟨h1, fun i => Nat.mod_lt _ (by omega), fun i hi => by omega⟩

/-- C10 witness at `queueSize = 1`. -/
theorem C10_indexing_safety_witness :
    (1 ≤ 1 ∧ Inv (NewOperation 1 16 1)) ∧
    ((NewOperation 1 16 1).errors.head < (NewOperation 1 16 1).errors.Size) :=
  have h := C10_indexing_safety 1 (le_refl 1) 16 1
  ⟨⟨le_refl 1, h.1⟩, (h.2.2.2 _ h.1).1⟩

/-- C2 counterexample: in a capacity-2 history, after exactly 2
rotations with `w0 = [0]` then `w1 = [1]`, `Get 0` returns the FIRST
write `w0`, not the most recent write `w1` as the claim states. -/
theorem C2_get_counterexample :
    (rotateAll (newErrorList 2) [[0], [1]]).Get 0 = some [0] ∧
    ¬((rotateAll (newErrorList 2) [[0], [1]]).Get 0 = some [1]) := by
  constructor
  · rfl
  · intro h
    have : ([0] : ColorError) = [1] := by
      have h0 : (rotateAll (newErrorList 2) [[0], [1]]).Get 0 = some [0] := rfl
      rw [h0] at h
      injection h
    simp at this

/-- C2 amended: `Get(i)` returns the `i`-th OLDEST remembered entry
(the write cursor points at the next slot to overwrite, i.e. the
oldest): after exactly `N` rotations with `w0..w(N-1)`, `Get i`
returns `w_i` — so `Get 0` is the first write and `Get (N-1)` the most
recent — and after `N+1` rotations `Get i` returns the `(i+1)`-th
write, so the first write `w0` is no longer retrievable by any
`Get i`. -/
theorem C2_get_oldest_first (N : ℕ) (hN : 1 ≤ N) (ws : List ColorError)
    (hlen : ws.length = N) :
    (∀ i, i < N →
      (rotateAll (newErrorList N) ws).Get i = some (ws.getD i [])) ∧
    (∀ (w' : ColorError) (i), i < N →
      (rotateAll (newErrorList N) (ws ++ [w'])).Get i =
        some ((ws ++ [w']).getD (i + 1) [])) :=
  ⟨fun i hi => get_after_fill N hN ws hlen i hi,
    fun w' i hi => get_after_overfill N hN ws hlen w' i hi⟩

/-- C2 witness at capacity 2 with writes `[0], [1]` then `[2]`. -/
theorem C2_get_oldest_first_witness :
    (1 ≤ 2 ∧ ([[0], [1]] : List ColorError).length = 2) ∧
    (rotateAll (newErrorList 2) [[0], [1]]).Get 0 = some [0] ∧
    (rotateAll (newErrorList 2) [[0], [1]]).Get 1 = some [1] ∧
    (rotateAll (newErrorList 2) ([[0], [1]] ++ [[2]])).Get 0 = some [1] ∧
    (rotateAll (newErrorList 2) ([[0], [1]] ++ [[2]])).Get 1 = some [2] :=
  have h := C2_get_oldest_first 2 (by norm_num) [[0], [1]] rfl
  ⟨⟨by norm_num, rfl⟩,
    h.1 0 (by norm_num),
    h.1 1 (by norm_num),
    h.2 [2] 0 (by norm_num),
    h.2 [2] 1 (by norm_num)⟩

/-- C3 counterexample: `NewOperation` rejects nothing.  `queueSize = 0`
(claimed rejected as `< 1`) constructs successfully, and so do
`ratio = 0` and `ratio = -1` (claimed rejected as `≤ 0`); the
multiplier argument stands for the `NaN`/`Inf` float the Go code
computes without error in those cases. -/
theorem C3_no_rejection_counterexample :
    (NewOperationE 0 1 1).isOk = true ∧
    (NewOperationE 5 0 0).isOk = true ∧
    (NewOperationE 5 (-1) 0).isOk = true := by
  refine ⟨rfl, rfl, ?_⟩
  unfold NewOperationE
  rw [if_neg (by norm_num)]
  rfl

/-- C3 amended: `NewOperation` performs no construction-time
validation: for every `queueSize ≥ 0` and every `ratio` (including
`ratio = 0` and `ratio = -1`) it returns an engine whose weight table
and error history both have length `queueSize`; only `queueSize < 0`
aborts (the panic of allocating a negative-length slice).  The
rejection of `ratio ≤ 0` exists only in the CLI (`main.go`), which
panics before `NewOperation` is ever called. -/
theorem C3_no_validation (qs : ℤ) (hqs : 0 ≤ qs) (ratio m : ℚ) :
    (∃ op, NewOperationE qs ratio m = Except.ok op ∧
      op.Weights.length = qs.toNat ∧ op.errors.Size = qs.toNat ∧
      op.Ratio = ratio) ∧
    (∀ q : ℤ, q < 0 → (NewOperationE q ratio m).isOk = false) ∧
    ((cliRatioCheck ratio).isOk = true ↔ 0 < ratio) := by
  refine ⟨⟨NewOperation qs.toNat ratio m, ?_, ?_, ?_, rfl⟩, ?_, ?_⟩
  · unfold NewOperationE
    rw [if_neg (by omega)]
  · exact initWeightsGo_length m qs.toNat 1
  · simp [NewOperation, newErrorList, errorList.Size]
  · intro q hq
    unfold NewOperationE
    rw [if_pos hq]
    rfl
  · unfold cliRatioCheck
    by_cases h : ratio ≤ 0
    · rw [if_pos h]
      refine iff_of_false ?_ (not_lt.mpr h)
      intro hc
      exact Bool.noConfusion hc
    · rw [if_neg h]
      exact iff_of_true rfl (not_le.mp h)

/-- C3 witness at `queueSize = 0`, `ratio = -1`. -/
theorem C3_no_validation_witness :
    ((0 : ℤ) ≤ 0) ∧
    (∃ op, NewOperationE 0 (-1) 0 = Except.ok op ∧
      op.Weights.length = (0 : ℤ).toNat ∧ op.errors.Size = (0 : ℤ).toNat ∧
      op.Ratio = -1) ∧
    ((cliRatioCheck (-1)).isOk = true ↔ (0 : ℚ) < -1) :=
  have h := C3_no_validation 0 (le_refl 0) (-1) 0
  ⟨le_refl 0, h.1, h.2.2⟩

/-- C4: at every in-bounds visited pixel, the color proposed to the
sink is, per channel, `clamp(source + round(acc))` into `[0, 0xffff]`,
where `acc` for channel `j` is the sum over all history slots `i` of
`weight[i] * history.get(i)[j]` divided by `ratio`, a slot still
holding the unwritten `nil` sentinel contributing exactly zero. -/
theorem C4_proposed_color_formula (img : ImageM) (h4 : img.numChannels = 4)
    (rs : Op) (d : Dir)
    (hb : 0 ≤ rs.x ∧ rs.x < img.size.1 ∧ 0 ≤ rs.y ∧ rs.y < img.size.2) :
    (rs.move d img).writes = rs.writes ++ [((rs.x, rs.y),
      { R := clamp ((img.src rs.x rs.y).R + rnd (accSumC rs 0)),
        G := clamp ((img.src rs.x rs.y).G + rnd (accSumC rs 1)),
        B := clamp ((img.src rs.x rs.y).B + rnd (accSumC rs 2)),
        A := clamp ((img.src rs.x rs.y).A + rnd (accSumC rs 3)) })] := by
  rw [move_eq_pos rs d img hb, h4]
  have hacc : rs.AccumulatedError 4 =
      [accChannel rs 0, accChannel rs 1, accChannel rs 2, accChannel rs 3] := rfl
  have hpix : (DitherPixel img rs.x rs.y (rs.AccumulatedError 4)).1 =
      { R := clamp ((img.src rs.x rs.y).R + rnd (accSumC rs 0)),
        G := clamp ((img.src rs.x rs.y).G + rnd (accSumC rs 1)),
        B := clamp ((img.src rs.x rs.y).B + rnd (accSumC rs 2)),
        A := clamp ((img.src rs.x rs.y).A + rnd (accSumC rs 3)) } := by
    show propose (img.src rs.x rs.y) (rs.AccumulatedError 4) = _
    rw [hacc]
    unfold propose
    rw [← accChannel_eq_sum rs 0, ← accChannel_eq_sum rs 1, ← accChannel_eq_sum rs 2,
      ← accChannel_eq_sum rs 3]
    rfl
  rw [hpix]

/-- C4 witness: a fresh engine (capacity 2) at the in-bounds pixel
`(0,0)` of a concrete 1×1 image. -/
theorem C4_proposed_color_formula_witness :
    ((⟨(1, 1), 4, fun _ _ => ⟨10, 20, 30, 40⟩, fun _ _ c => c⟩ : ImageM).numChannels
        = 4 ∧
      (0 ≤ (NewOperation 2 16 1).x ∧
        (NewOperation 2 16 1).x <
          (⟨(1, 1), 4, fun _ _ => ⟨10, 20, 30, 40⟩, fun _ _ c => c⟩ : ImageM).size.1 ∧
        0 ≤ (NewOperation 2 16 1).y ∧
        (NewOperation 2 16 1).y <
          (⟨(1, 1), 4, fun _ _ => ⟨10, 20, 30, 40⟩, fun _ _ c => c⟩ : ImageM).size.2)) ∧
    ((NewOperation 2 16 1).move .NONE
        (⟨(1, 1), 4, fun _ _ => ⟨10, 20, 30, 40⟩, fun _ _ c => c⟩ : ImageM)).writes =
      (NewOperation 2 16 1).writes ++
        [(((NewOperation 2 16 1).x, (NewOperation 2 16 1).y),
          { R := clamp
              ((((⟨(1, 1), 4, fun _ _ => ⟨10, 20, 30, 40⟩, fun _ _ c => c⟩ : ImageM)).src
                  (NewOperation 2 16 1).x (NewOperation 2 16 1).y).R +
                rnd (accSumC (NewOperation 2 16 1) 0)),
            G := clamp
              ((((⟨(1, 1), 4, fun _ _ => ⟨10, 20, 30, 40⟩, fun _ _ c => c⟩ : ImageM)).src
                  (NewOperation 2 16 1).x (NewOperation 2 16 1).y).G +
                rnd (accSumC (NewOperation 2 16 1) 1)),
            B := clamp
              ((((⟨(1, 1), 4, fun _ _ => ⟨10, 20, 30, 40⟩, fun _ _ c => c⟩ : ImageM)).src
                  (NewOperation 2 16 1).x (NewOperation 2 16 1).y).B +
                rnd (accSumC (NewOperation 2 16 1) 2)),
            A := clamp
              ((((⟨(1, 1), 4, fun _ _ => ⟨10, 20, 30, 40⟩, fun _ _ c => c⟩ : ImageM)).src
                  (NewOperation 2 16 1).x (NewOperation 2 16 1).y).A +
                rnd (accSumC (NewOperation 2 16 1) 3)) })] :=
  ⟨⟨rfl, by decide⟩,
    C4_proposed_color_formula _ rfl (NewOperation 2 16 1) .NONE (by decide)⟩

/-- C7: with a sink that stores colors at full fidelity (read-back
always equals the proposed color), the error vector produced at every
dithered pixel is exactly zero in all four channels, and the
accumulated diffused error passed to `DitherPixel` is exactly zero at
every pixel: the all-zero-history invariant holds at construction, is
preserved by every run, makes the accumulated error the zero vector,
and makes every logged write propose exactly the source color (hence
error `sc - dc = 0`).  The hypothesis `0 < rs.Ratio` records the
engine's domain precondition (for `ratio = 0` Go computes `0.0/0.0 =
NaN`, while `ℚ` division by zero is 0, so the model would not track Go
there). -/
theorem C7_full_fidelity_zero (img : ImageM)
    (hq : ∀ x y c, img.quantize x y c = c)
    (hsrc : ∀ x y, (img.src x y).InRange)
    (h4 : img.numChannels = 4)
    (rs : Op) (hr : 0 < rs.Ratio) (hz : ZeroErrors rs.errors) (ds : List Dir) :
    (∀ (qs : ℕ) (r' m' : ℚ), ZeroErrors (NewOperation qs r' m').errors) ∧
    rs.AccumulatedError 4 = [0, 0, 0, 0] ∧
    (∀ x y, (DitherPixel img x y (rs.AccumulatedError 4)).2 = [0, 0, 0, 0]) ∧
    ZeroErrors ((rs.runDirs ds img).errors) ∧
    (∀ w ∈ (rs.runDirs ds img).writes,
      w ∈ rs.writes ∨ w.2 = img.src w.1.1 w.1.2) := by
  obtain ⟨hze, hwz⟩ := ZeroErrors_runDirs img hq hsrc h4 ds rs hz
  refine ⟨fun qs r' m' => ZeroErrors_new qs, AccumulatedError_zero rs hz,
    ?_, hze, hwz⟩
  intro x y
  rw [AccumulatedError_zero rs hz]
  exact (DitherPixel_zero img hq hsrc x y).2

/-- C7 witness: identity sink over a concrete 1×1 image, one-step
run. -/
theorem C7_full_fidelity_zero_witness :
    ((0 : ℚ) < 2 ∧ ZeroErrors (NewOperation 1 2 1).errors) ∧
    (NewOperation 1 2 1).AccumulatedError 4 = [0, 0, 0, 0] ∧
    ZeroErrors (((NewOperation 1 2 1).runDirs [.NONE]
      (⟨(1, 1), 4, fun _ _ => ⟨1, 2, 3, 4⟩, fun _ _ c => c⟩ : ImageM)).errors) :=
  have h := C7_full_fidelity_zero
    (⟨(1, 1), 4, fun _ _ => ⟨1, 2, 3, 4⟩, fun _ _ c => c⟩ : ImageM)
    (fun _ _ _ => rfl) (fun _ _ => show NRGBA64.InRange ⟨1, 2, 3, 4⟩ by decide) rfl
    (NewOperation 1 2 1) (show (0 : ℚ) < 2 by norm_num) (ZeroErrors_new 1) [.NONE]
  ⟨⟨by norm_num, ZeroErrors_new 1⟩, h.2.1, h.2.2.2.1⟩

end Riemersma
